import Mathlib

/-!
Verification development for the TidyCore organization engine.

The definitions below are a shallow embedding of the pure logic of
`tidycore/engine.py` and `tidycore/config_manager.py`:

- rule matching (`TidyCoreEngine._get_category` on files),
- the folder classifier (`TidyCoreEngine._get_folder_dominant_category`),
- the conflict resolver (`TidyCoreEngine._resolve_conflict`),
- the cooldown scheduler (`_queue_item_for_processing`, `_process_cooldown_files`),
- the eligibility filter (`TidyCoreEngine._should_process`),
- the pause/resume state machine (`run`, `pause`, `resume`),
- undo (`TidyCoreEngine.undo_move`),
- configuration loading (`load_config`).

Filesystem state is passed explicitly through an `FS` record (sets of file
and directory paths plus an oracle for the results of `os.walk`, where
`none` models a raised exception).  Times are integers; machine floats in
the source are only compared by order, which the integer model preserves.
-/

namespace TidyCore

/-- Model of ASCII lowercasing of one character, as performed by Python
`str.lower` on the ASCII range. -/
def lowerChar (c : Char) : Char :=
  if 65 ≤ c.toNat ∧ c.toNat ≤ 90 then Char.ofNat (c.toNat + 32) else c

/-- Model of Python `str.lower` (ASCII range). -/
def lowerStr (s : String) : String :=
  ⟨s.data.map lowerChar⟩

/-- Model of `os.path.basename`: the characters after the last path
separator. -/
def basename (p : String) : String :=
  ⟨p.data.foldl (fun acc c => if c = '/' then [] else acc ++ [c]) []⟩

/-- Split a character list at its last dot: `splitAtLastDot cs = some (pre, post)`
when `cs = pre ++ [dot] ++ post` and `post` has no dot; `none` when `cs` has
no dot. -/
def splitAtLastDot : List Char → Option (List Char × List Char)
  | [] => none
  | c :: rest =>
    match splitAtLastDot rest with
    | some (pre, post) => some (c :: pre, post)
    | none => if c = '.' then some ([], rest) else none

/-- Model of the extension component of `os.path.splitext`, applied to a file
name (no separators): the suffix from the last dot on, provided some earlier
character of the name is not a dot (so dotfiles like `.bashrc` have no
extension). -/
def extOf (name : String) : String :=
  match splitAtLastDot name.data with
  | none => ""
  | some (pre, post) => if pre.any (fun c => c ≠ '.') then ⟨'.' :: post⟩ else ""

/-- The lowercased extension the engine extracts from a path
(`os.path.splitext(path)[1].lower()`). -/
def fileExtOf (path : String) : String :=
  lowerStr (extOf (basename path))

/-- Model of `pathlib.PurePath.suffix`: the part of the name from the last
dot on, provided that dot is neither the first nor the last character. -/
def pySuffix (name : String) : String :=
  match splitAtLastDot name.data with
  | none => ""
  | some (pre, post) => if pre ≠ [] ∧ post ≠ [] then ⟨'.' :: post⟩ else ""

/-- Model of `pathlib.PurePath.stem`: the name with its suffix removed. -/
def pyStem (name : String) : String :=
  match splitAtLastDot name.data with
  | none => name
  | some (pre, post) => if pre ≠ [] ∧ post ≠ [] then ⟨pre⟩ else name

/-- Model of whether a Python string starts with a dot
(`base_name.startswith(".")`). -/
def startsWithDot (s : String) : Bool :=
  match s.data with
  | [] => false
  | c :: _ => c == '.'

/-- The value of one entry of the rule table: either a flat list of
extensions, or a nested mapping from subcategory names to extension lists
(the reserved key "__extensions__" holding flat extensions of the
category).  This is the tagged form of the list-or-dict union the Python
code inspects with isinstance. -/
inductive RuleVal where
  | flat (exts : List String)
  | nested (subs : List (String × List String))
deriving DecidableEq

/-- The engine configuration, as read by `TidyCoreEngine.__init__` from the
loaded configuration dictionary (defaults already applied). -/
structure Config where
  target_folder : String
  rules : List (String × RuleVal)
  ignore_list : List String
  cooldown_period_seconds : Int
  folder_handling_strategy : String

/-- Explicit filesystem state: which paths are files, which are
directories, and what `os.walk` returns for a directory (`none` models a
raised exception, `some entries` the file paths produced by the walk; the
walk of a real directory never yields directory paths in its file lists). -/
structure FS where
  files : List String
  dirs : List String
  walk : String → Option (List String)

/-- Model of `os.path.exists`. -/
def FS.existsPath (fs : FS) (p : String) : Prop :=
  p ∈ fs.files ∨ p ∈ fs.dirs

instance (fs : FS) (p : String) : Decidable (fs.existsPath p) :=
  inferInstanceAs (Decidable (_ ∨ _))

/-- The managed category set built in `TidyCoreEngine.__init__`:
`list(self.rules.keys()) + ["Others"]`. -/
def managedCategories (cfg : Config) : List String :=
  cfg.rules.map (fun kv => kv.1) ++ ["Others"]

/-- Model of `sub_rules.get("__extensions__", [])`: the value of the first
entry with the given key, defaulting to the empty list. -/
def lookupSubs : List (String × List String) → String → List String
  | [], _ => []
  | kv :: rest, key => if kv.1 = key then kv.2 else lookupSubs rest key

/-- The inner loop of `_get_category` over a nested rule value: the first
subcategory, in table order and skipping the reserved key, whose extension
list holds the extension. -/
def findSubMatch : List (String × List String) → String → Option String
  | [], _ => none
  | (sub, exts) :: rest, ext =>
    if sub = "__extensions__" then findSubMatch rest ext
    else if ext ∈ exts then some sub
    else findSubMatch rest ext

/-- The rule-table loop of `TidyCoreEngine._get_category` for a nonempty
lowercased extension: first matching entry in table order; for nested
entries the reserved "__extensions__" key is checked before the named
subcategories.  Returns ("Others", none) when no rule matches. -/
def matchRules : List (String × RuleVal) → String → String × Option String
  | [], _ => ("Others", none)
  | (cat, RuleVal.flat exts) :: rest, ext =>
    if ext ∈ exts then (cat, none) else matchRules rest ext
  | (cat, RuleVal.nested subs) :: rest, ext =>
    if ext ∈ lookupSubs subs "__extensions__" then (cat, none)
    else
      match findSubMatch subs ext with
      | some sub => (cat, some sub)
      | none => matchRules rest ext

/-- Category of one walked file inside a folder, as computed by the
recursive `_get_category` call in `_get_folder_dominant_category`.  Entries
produced by `os.walk` file lists are never directories, so only the
`os.path.isfile` branch and the final fallthrough of `_get_category` are
reachable for them. -/
def fileCategory (cfg : Config) (fs : FS) (path : String) : String × Option String :=
  if path ∈ fs.files then
    let ext := fileExtOf path
    if ext = "" then ("Others", none) else matchRules cfg.rules ext
  else ("Others", none)

/-- One step of the tally loop: `if category in category_counts:
category_counts[category] += 1`. -/
def bump : List (String × Nat) → String → List (String × Nat)
  | [], _ => []
  | (k, n) :: rest, c => if k = c then (k, n + 1) :: rest else (k, n) :: bump rest c

/-- The initial tally `{category: 0 for category in self.rules.keys()}`. -/
def initCounts (cfg : Config) : List (String × Nat) :=
  cfg.rules.map (fun kv => (kv.1, 0))

/-- The tally of `_get_folder_dominant_category`: every walked file is
categorized and counted against its top-level rule category. -/
def tallyFiles (cfg : Config) (fs : FS) (entries : List String) : List (String × Nat) :=
  entries.foldl (fun counts p => bump counts (fileCategory cfg fs p).1) (initCounts cfg)

/-- One comparison step of Python `max(..., key=...)`: keep the current
best unless the next value is strictly greater, so the first maximum in
iteration order wins. -/
def pickMax (best x : String × Nat) : String × Nat :=
  if x.2 > best.2 then x else best

/-- Model of `max(category_counts, key=category_counts.get)` over an
association list in iteration order. -/
def maxEntryOpt : List (String × Nat) → Option (String × Nat)
  | [] => none
  | kv :: rest => some (rest.foldl pickMax kv)

/-- Model of `TidyCoreEngine._get_folder_dominant_category`: a walk failure
(caught exception) gives "Others"; an all-zero tally gives "Others";
otherwise the first category achieving the maximum tally wins. -/
def folderDominantCategory (cfg : Config) (fs : FS) (folder : String) : String :=
  match fs.walk folder with
  | none => "Others"
  | some entries =>
    let counts := tallyFiles cfg fs entries
    if counts.all (fun kv => kv.2 == 0) then "Others"
    else
      match maxEntryOpt counts with
      | some kv => kv.1
      | none => "Others"

/-- Model of `TidyCoreEngine._get_category`. -/
def getCategory (cfg : Config) (fs : FS) (path : String) : String × Option String :=
  if path ∈ fs.dirs then
    if cfg.folder_handling_strategy = "smart_scan" then
      (folderDominantCategory cfg fs path, none)
    else if cfg.folder_handling_strategy = "move_to_others" then ("Others", none)
    else ("Others", none)
  else if path ∈ fs.files then
    let ext := fileExtOf path
    if ext = "" then ("Others", none) else matchRules cfg.rules ext
  else ("Others", none)

/-- Model of `TidyCoreEngine._should_process`, with the checks in source
order: the "ignore" folder strategy, existence, the ignore list (exact
base name or nonempty lowercased extension), hidden names beginning with
a dot,
and managed category directories. -/
def shouldProcess (cfg : Config) (fs : FS) (path : String) : Bool :=
  let base := basename path
  if cfg.folder_handling_strategy = "ignore" ∧ path ∈ fs.dirs ∧
      base ∉ managedCategories cfg then false
  else if ¬ fs.existsPath path then false
  else
    let ext := lowerStr (extOf base)
    if base ∈ cfg.ignore_list ∨ (ext ≠ "" ∧ ext ∈ cfg.ignore_list) then false
    else if startsWithDot base then false
    else if path ∈ fs.dirs ∧ base ∈ managedCategories cfg then false
    else true

/-- The components of the destination directory `_organize_item` composes
under the target folder: the category, then the subcategory when it is
present and differs from the category. -/
def organizeDestination (cfg : Config) (fs : FS) (path : String) : List String :=
  let c := getCategory cfg fs path
  match c.2 with
  | some sub => if sub ≠ c.1 then [c.1, sub] else [c.1]
  | none => [c.1]

/-- Model of `TidyCoreEngine._queue_item_for_processing`: when the path is
eligible and not already pending, record the current time against it;
otherwise leave the pending map unchanged.  The pending map is an
association list in insertion order, mirroring dict order. -/
def queueItem (eligible : Bool) (cf : List (String × Int)) (path : String)
    (now : Int) : List (String × Int) :=
  if eligible then
    if path ∈ cf.map Prod.fst then cf else cf ++ [(path, now)]
  else cf

/-- Model of `TidyCoreEngine._process_cooldown_files`: returns the pending
map with every entry older than the cooldown removed, together with the
paths handed to `_organize_item` (those removed entries that still exist),
in iteration order. -/
def processCooldown (fs : FS) (cooldown now : Int) (cf : List (String × Int)) :
    List (String × Int) × List String :=
  let ready := (cf.filter (fun kv => decide (now - kv.2 > cooldown))).map Prod.fst
  (cf.filter (fun kv => decide (¬ now - kv.2 > cooldown)),
   ready.filter (fun p => decide (fs.existsPath p)))

/-- The engine state toggled by pause/resume, with the pending cooldown map
and the accumulated list of paths handed to `_organize_item`. -/
structure EngineState where
  isRunning : Bool
  cooldownFiles : List (String × Int)
  organized : List String

/-- One iteration of the loop body in `TidyCoreEngine.run`: the cooldown
flush runs only while the engine is running. -/
def tick (cfg : Config) (fs : FS) (now : Int) (s : EngineState) : EngineState :=
  if s.isRunning then
    let r := processCooldown fs cfg.cooldown_period_seconds now s.cooldownFiles
    { s with cooldownFiles := r.1, organized := s.organized ++ r.2 }
  else s

/-- A watch event (`on_created` / `on_modified`) feeding
`_queue_item_for_processing`; it never consults the running flag. -/
def watchEvent (cfg : Config) (fs : FS) (path : String) (now : Int)
    (s : EngineState) : EngineState :=
  { s with cooldownFiles := queueItem (shouldProcess cfg fs path) s.cooldownFiles path now }

/-- Model of `TidyCoreEngine.pause`. -/
def pauseEngine (s : EngineState) : EngineState :=
  if s.isRunning then { s with isRunning := false } else s

/-- Model of `TidyCoreEngine.resume`. -/
def resumeEngine (s : EngineState) : EngineState :=
  if s.isRunning then s else { s with isRunning := true }

/-- What `TidyCoreEngine.run` leaves behind when the loop body raises: the
except clause logs a critical message, the finally clause stops and joins
the observer and logs a stop message.  The engine state itself is not
touched by either clause. -/
structure LoopExit where
  state : EngineState
  loggedCritical : Bool
  observerStopped : Bool
  loggedStopped : Bool

/-- Model of the except/finally boundary of `TidyCoreEngine.run` on a crash
of the loop body. -/
def runLoopCrash (s : EngineState) : LoopExit :=
  { state := s, loggedCritical := true, observerStopped := true, loggedStopped := true }

/-- The two distinct error kinds `load_config` can raise. -/
inductive ConfigError where
  | fileNotFound (msg : String)
  | valueError (msg : String)
deriving DecidableEq

/-- The configuration dictionary as parsed from JSON, before validation and
extension normalization (`target_folder` is `none` when the key is
absent). -/
structure RawConfig where
  target_folder : Option String
  rules : List (String × RuleVal)
  ignore_list : List String
  cooldown_period_seconds : Int
  folder_handling_strategy : String

/-- Lowercasing of one rule entry value, as in the normalization loop of
`load_config`. -/
def lowerRuleVal : RuleVal → RuleVal
  | RuleVal.flat exts => RuleVal.flat (exts.map lowerStr)
  | RuleVal.nested subs => RuleVal.nested (subs.map (fun kv => (kv.1, kv.2.map lowerStr)))

/-- The extension-normalization loop of `load_config`: every extension in
the rule table is lowercased. -/
def normalizeRules (rules : List (String × RuleVal)) : List (String × RuleVal) :=
  rules.map (fun kv => (kv.1, lowerRuleVal kv.2))

/-- Model of `tidycore.config_manager.load_config`: a missing file raises
FileNotFoundError; a missing, empty or non-directory target folder raises
ValueError; otherwise the parsed configuration is returned with its rule
extensions lowercased. -/
def load_config (fs : FS) (path : String) (parsed : RawConfig) :
    Except ConfigError RawConfig :=
  if ¬ fs.existsPath path then
    Except.error (ConfigError.fileNotFound ("Configuration file not found at: " ++ path))
  else
    match parsed.target_folder with
    | none =>
      Except.error (ConfigError.valueError
        ("The target_folder specified in " ++ path ++ " is invalid or does not exist."))
    | some tf =>
      if tf = "" ∨ tf ∉ fs.dirs then
        Except.error (ConfigError.valueError
          ("The target_folder specified in " ++ path ++ " is invalid or does not exist."))
      else Except.ok { parsed with rules := normalizeRules parsed.rules }

/-- A filesystem path split as pathlib composes it in `_resolve_conflict`:
the parent directory and the final name.  The resolver only ever changes
the name, probing alternatives inside the same parent. -/
structure FPath where
  parent : String
  name : String
deriving DecidableEq

/-- Decimal digit characters, least significant first; the building block
of the decimal rendering of the conflict counter. -/
def decDigitChar (d : Nat) : Char :=
  match d with
  | 0 => '0'
  | 1 => '1'
  | 2 => '2'
  | 3 => '3'
  | 4 => '4'
  | 5 => '5'
  | 6 => '6'
  | 7 => '7'
  | 8 => '8'
  | _ => '9'

/-- Fuel-driven decimal digits (least significant first), structurally
recursive so that concrete instances reduce in the kernel. -/
def decDigitsAux : Nat → Nat → List Nat
  | 0, _ => []
  | fuel + 1, n => if n = 0 then [] else n % 10 :: decDigitsAux fuel (n / 10)

/-- Decimal digits of a natural number, least significant first. -/
def decDigits (n : Nat) : List Nat :=
  decDigitsAux n n

/-- Model of Python decimal rendering of a nonnegative integer
(f-string interpolation of the conflict counter). -/
def decimalStr (n : Nat) : String :=
  if n = 0 then "0" else ⟨(decDigits n).reverse.map decDigitChar⟩

/-- The candidate name `f"{base} ({counter}){ext}"` probed by
`_resolve_conflict`, built from the pathlib stem and suffix of the desired
destination name. -/
def conflictName (dest : FPath) (k : Nat) : String :=
  pyStem dest.name ++ " (" ++ decimalStr k ++ ")" ++ pySuffix dest.name

/-- The candidate path probed at counter `k`, in the same parent directory
as the desired destination. -/
def candidateAt (dest : FPath) (k : Nat) : FPath :=
  FPath.mk dest.parent (conflictName dest k)

/-- The probe loop of `_resolve_conflict`, with explicit fuel: starting at
counter `k`, return the first candidate that does not exist. -/
def resolveAux (fsp : List FPath) (dest : FPath) : Nat → Nat → Option FPath
  | 0, _ => none
  | fuel + 1, k =>
    if candidateAt dest k ∈ fsp then resolveAux fsp dest fuel (k + 1)
    else some (candidateAt dest k)

/-- Model of `TidyCoreEngine._resolve_conflict` against the fixed set `fsp`
of existing paths: the desired destination unchanged when it does not
exist, otherwise the first free numbered candidate starting from counter 1.
The fuel `fsp.length + 1` is always sufficient, as proved below. -/
def resolveConflict (fsp : List FPath) (dest : FPath) : FPath :=
  if dest ∈ fsp then (resolveAux fsp dest (fsp.length + 1) 1).getD dest else dest

/-- Model of `TidyCoreEngine.undo_move` against the fixed set `fsp` of
existing paths: `none` paired with an emitted notification when the source
is gone, otherwise the conflict-resolved destination the item is moved
back to, also paired with an emitted notification. -/
def undoMove (fsp : List FPath) (source original : FPath) : Option FPath × Bool :=
  if source ∈ fsp then (some (resolveConflict fsp original), true) else (none, true)

/-- The pairs `(category, subcategory-or-none)` under which an extension is
registered in the rule table, listed in the order `_get_category` would
inspect them: table order, and inside one nested entry the reserved
"__extensions__" key before the named subcategories. -/
def pairsOfRule (cat : String) (rv : RuleVal) (ext : String) :
    List (String × Option String) :=
  match rv with
  | RuleVal.flat exts => if ext ∈ exts then [(cat, none)] else []
  | RuleVal.nested subs =>
    (if ext ∈ lookupSubs subs "__extensions__" then [(cat, none)] else []) ++
      subs.filterMap (fun kv =>
        if kv.1 ≠ "__extensions__" ∧ ext ∈ kv.2 then some (cat, some kv.1) else none)

/-- All registrations of an extension across the rule table, in inspection
order. -/
def registeredPairs (rules : List (String × RuleVal)) (ext : String) :
    List (String × Option String) :=
  rules.foldr (fun kv acc => pairsOfRule kv.1 kv.2 ext ++ acc) []

/-- The largest tally value of the folder classifier counts. -/
def vmax (l : List (String × Nat)) : Nat :=
  l.foldr (fun kv m => max kv.2 m) 0

/-- Rule table used to instantiate the theorems below on concrete inputs. -/
def exampleRules : List (String × RuleVal) :=
  [("Documents", RuleVal.nested
      [("__extensions__", [".txt"]), ("PDFs", [".pdf"]), ("Word", [".docx"])]),
   ("Images", RuleVal.flat [".jpg", ".png"])]

/-- Configuration used to instantiate the theorems below on concrete
inputs. -/
def exampleConfig : Config :=
  Config.mk "t" exampleRules [".tmp", "skipme"] 5 "smart_scan"

/-- Filesystem used to instantiate the theorems below on concrete
inputs. -/
def exampleFS : FS :=
  FS.mk ["t/b.pdf", "t/report.PDF"] ["t/Images"] (fun _ => none)

/-- Configuration with no rules and an empty ignore list, used by the
eligibility-filter counterexample. -/
def plainConfig : Config :=
  Config.mk "t" [] [] 5 "smart_scan"

/-- Filesystem with no files and no directories, used by the
eligibility-filter counterexample. -/
def emptyFS : FS :=
  FS.mk [] [] (fun _ => none)

/-! Lemmas on rule matching. -/

lemma registeredPairs_nil (ext : String) : registeredPairs [] ext = [] := rfl

lemma registeredPairs_cons (kv : String × RuleVal) (rules : List (String × RuleVal))
    (ext : String) :
    registeredPairs (kv :: rules) ext =
      pairsOfRule kv.1 kv.2 ext ++ registeredPairs rules ext := rfl

lemma findSubMatch_none_filterMap (subs : List (String × List String)) (ext cat : String)
    (h : findSubMatch subs ext = none) :
    subs.filterMap (fun kv =>
      if kv.1 ≠ "__extensions__" ∧ ext ∈ kv.2 then some (cat, some kv.1) else none) = [] := by
  induction subs with
  | nil => rfl
  | cons kv rest ih =>
    obtain ⟨sub, exts⟩ := kv
    simp only [findSubMatch] at h
    simp only [List.filterMap_cons]
    by_cases h1 : sub = "__extensions__"
    · rw [if_pos h1] at h
      rw [if_neg (by simp [h1])]
      exact ih h
    · rw [if_neg h1] at h
      by_cases h2 : ext ∈ exts
      · rw [if_pos h2] at h
        cases h
      · rw [if_neg h2] at h
        rw [if_neg (by simp only [ne_eq, not_and]; intro _ hm; exact h2 hm)]
        exact ih h

lemma findSubMatch_some_filterMap (subs : List (String × List String)) (ext cat sub : String)
    (h : findSubMatch subs ext = some sub) :
    ∃ rest, subs.filterMap (fun kv =>
      if kv.1 ≠ "__extensions__" ∧ ext ∈ kv.2 then some (cat, some kv.1) else none) =
        (cat, some sub) :: rest := by
  induction subs with
  | nil => cases h
  | cons kv rest ih =>
    obtain ⟨s, exts⟩ := kv
    simp only [findSubMatch] at h
    simp only [List.filterMap_cons]
    by_cases h1 : s = "__extensions__"
    · rw [if_pos h1] at h
      rw [if_neg (by simp [h1])]
      exact ih h
    · rw [if_neg h1] at h
      by_cases h2 : ext ∈ exts
      · rw [if_pos h2] at h
        obtain rfl : s = sub := Option.some.inj h
        rw [if_pos ⟨h1, h2⟩]
        exact ⟨_, rfl⟩
      · rw [if_neg h2] at h
        rw [if_neg (by simp only [ne_eq, not_and]; intro _ hm; exact h2 hm)]
        exact ih h

/-- The rule-matching loop returns exactly the first registration of the
extension in inspection order, defaulting to ("Others", none). -/
lemma matchRules_eq_headD (rules : List (String × RuleVal)) (ext : String) :
    matchRules rules ext = (registeredPairs rules ext).headD ("Others", none) := by
  induction rules with
  | nil => rfl
  | cons kv rest ih =>
    obtain ⟨cat, rv⟩ := kv
    cases rv with
    | flat exts =>
      rw [registeredPairs_cons]
      simp only [matchRules, pairsOfRule]
      split_ifs with h
      · rfl
      · simpa using ih
    | nested subs =>
      rw [registeredPairs_cons]
      simp only [matchRules, pairsOfRule]
      split_ifs with h
      · rfl
      · cases hfind : findSubMatch subs ext with
        | none =>
          rw [findSubMatch_none_filterMap subs ext cat hfind]
          simpa using ih
        | some sub =>
          obtain ⟨tail, htail⟩ := findSubMatch_some_filterMap subs ext cat sub hfind
          rw [htail]
          rfl

/-- Looking up the reserved key in a lowercased nested table gives the
lowercased extension list of the raw table. -/
lemma lookupSubs_map_lower (subs : List (String × List String)) (key : String) :
    lookupSubs (subs.map fun kv => (kv.1, kv.2.map lowerStr)) key =
      (lookupSubs subs key).map lowerStr := by
  induction subs with
  | nil => rfl
  | cons kv rest ih =>
    obtain ⟨s, exts⟩ := kv
    simp only [List.map_cons, lookupSubs]
    by_cases hk : s = key
    · rw [if_pos hk, if_pos hk]
    · rw [if_neg hk, if_neg hk]
      exact ih

/-- Normalization preserves registrations: an extension registered in the
raw rule table is, after lowercasing, registered under the same pair in
the normalized table. -/
lemma registeredPairs_normalize_mem (raw : List (String × RuleVal)) (e cat : String)
    (sub : Option String) (h : (cat, sub) ∈ registeredPairs raw e) :
    (cat, sub) ∈ registeredPairs (normalizeRules raw) (lowerStr e) := by
  induction raw with
  | nil => simp only [registeredPairs_nil] at h; cases h
  | cons kv rest ih =>
    obtain ⟨c, rv⟩ := kv
    rw [registeredPairs_cons] at h
    have hnorm : normalizeRules ((c, rv) :: rest) =
      (c, lowerRuleVal rv) :: normalizeRules rest := rfl
    rw [hnorm, registeredPairs_cons]
    rcases List.mem_append.mp h with hin | hin
    · refine List.mem_append.mpr (Or.inl ?_)
      cases rv with
      | flat exts =>
        simp only [pairsOfRule] at hin
        split_ifs at hin with hmem
        · have hm2 : lowerStr e ∈ exts.map lowerStr := List.mem_map.mpr ⟨e, hmem, rfl⟩
          simp only [lowerRuleVal, pairsOfRule, hm2, if_pos]
          exact hin
        · cases hin
      | nested subs =>
        simp only [pairsOfRule] at hin
        simp only [lowerRuleVal, pairsOfRule]
        rcases List.mem_append.mp hin with hin1 | hin2
        · refine List.mem_append.mpr (Or.inl ?_)
          split_ifs at hin1 with hmem
          · have hm2 : lowerStr e ∈ lookupSubs
                (subs.map fun kv => (kv.1, kv.2.map lowerStr)) "__extensions__" := by
              rw [lookupSubs_map_lower]
              exact List.mem_map.mpr ⟨e, hmem, rfl⟩
            rw [if_pos hm2]
            exact hin1
          · cases hin1
        · refine List.mem_append.mpr (Or.inr ?_)
          rcases List.mem_filterMap.mp hin2 with ⟨kv0, hkv0, hval⟩
          by_cases hcond : kv0.1 ≠ "__extensions__" ∧ e ∈ kv0.2
          · rw [if_pos hcond] at hval
            refine List.mem_filterMap.mpr ⟨(kv0.1, kv0.2.map lowerStr), ?_, ?_⟩
            · exact List.mem_map.mpr ⟨kv0, hkv0, rfl⟩
            · have hc2 : (kv0.1, kv0.2.map lowerStr).1 ≠ "__extensions__" ∧
                  lowerStr e ∈ (kv0.1, kv0.2.map lowerStr).2 :=
                ⟨hcond.1, List.mem_map.mpr ⟨e, hcond.2, rfl⟩⟩
              exact (if_pos hc2).trans hval
          · rw [if_neg hcond] at hval
            cases hval
    · exact List.mem_append.mpr (Or.inr (ih hin))

/-- C1: on a regular file, `_get_category` returns ("Others", none) when the
lowercased extension is empty or registered nowhere; otherwise it returns
the first registration in rule-table inspection order (flat lists first
match as (category, none); nested maps check the reserved "__extensions__"
key first and then the named subcategories in table order).  Matching is
case-insensitive: configuration loading lowercases every registered
extension, registrations survive that lowercasing, and the result depends
only on the lowercased extension of the file, so a unique registration is
found regardless of the casing of the extension. -/
theorem getCategory_file_spec (cfg : Config) (fs : FS) (path : String)
    (hfile : path ∈ fs.files) (hdir : path ∉ fs.dirs) :
    (fileExtOf path = "" → getCategory cfg fs path = ("Others", none)) ∧
    (fileExtOf path ≠ "" →
      getCategory cfg fs path =
        (registeredPairs cfg.rules (fileExtOf path)).headD ("Others", none)) ∧
    (fileExtOf path ≠ "" → registeredPairs cfg.rules (fileExtOf path) = [] →
      getCategory cfg fs path = ("Others", none)) ∧
    (∀ raw e cat sub, (cat, sub) ∈ registeredPairs raw e →
      (cat, sub) ∈ registeredPairs (normalizeRules raw) (lowerStr e)) ∧
    (∀ cat sub, fileExtOf path ≠ "" →
      registeredPairs cfg.rules (fileExtOf path) = [(cat, sub)] →
      getCategory cfg fs path = (cat, sub)) ∧
    (∀ path2, path2 ∈ fs.files → path2 ∉ fs.dirs → fileExtOf path2 = fileExtOf path →
      getCategory cfg fs path2 = getCategory cfg fs path) := by
  have hunfold : ∀ q, q ∈ fs.files → q ∉ fs.dirs →
      getCategory cfg fs q =
        if fileExtOf q = "" then ("Others", none)
        else matchRules cfg.rules (fileExtOf q) := by
    intro q hq hqd
    simp only [getCategory, if_neg hqd, if_pos hq]
  have hbase := hunfold path hfile hdir
  refine ⟨?_, ?_, ?_, ?_, ?_, ?_⟩
  · intro he
    rw [hbase, if_pos he]
  · intro he
    rw [hbase, if_neg he, matchRules_eq_headD]
  · intro he hreg
    rw [hbase, if_neg he, matchRules_eq_headD, hreg]
    rfl
  · intro raw e cat sub h
    exact registeredPairs_normalize_mem raw e cat sub h
  · intro cat sub he hreg
    rw [hbase, if_neg he, matchRules_eq_headD, hreg]
    rfl
  · intro path2 h2f h2d heq
    rw [hunfold path2 h2f h2d, hbase, heq]

/-- Witness for C1: in the example table, .pdf is registered exactly under
Documents/PDFs, and both a lowercase and an uppercase .pdf file are
categorized there. -/
theorem getCategory_file_spec_witness :
    getCategory exampleConfig exampleFS "t/b.pdf" = ("Documents", some "PDFs") ∧
    getCategory exampleConfig exampleFS "t/report.PDF" = ("Documents", some "PDFs") := by
  have h := getCategory_file_spec exampleConfig exampleFS "t/b.pdf" (by decide) (by decide)
  have h1 := h.2.2.2.2.1 "Documents" (some "PDFs") (by decide) (by decide)
  have h6 := h.2.2.2.2.2 "t/report.PDF" (by decide) (by decide) (by decide)
  exact ⟨h1, h6.trans h1⟩

/-- C2: observing a path records the current time only when the path is not
already pending (a repeated observation of a still-pending path leaves the
map, and hence its first-seen timestamp, unchanged); a flush keeps exactly
the entries whose age does not exceed the cooldown and forwards exactly
the removed paths that still exist; and concretely an item observed at
t = 0 with cooldown 5 is not flushed at t = 4 and is flushed at t = 6 when
it still exists. -/
theorem cooldown_spec (fs : FS) (cooldown now : Int) (cf : List (String × Int))
    (path : String) (e : Bool) :
    (path ∈ cf.map Prod.fst → queueItem e cf path now = cf) ∧
    (e = true → path ∉ cf.map Prod.fst → queueItem e cf path now = cf ++ [(path, now)]) ∧
    (∀ p t, (p, t) ∈ (processCooldown fs cooldown now cf).1 ↔
      ((p, t) ∈ cf ∧ ¬ now - t > cooldown)) ∧
    (∀ p, p ∈ (processCooldown fs cooldown now cf).2 ↔
      (∃ t, (p, t) ∈ cf ∧ now - t > cooldown ∧ fs.existsPath p)) ∧
    processCooldown (FS.mk ["item"] [] fun _ => none) 5 4 [("item", 0)] =
      ([("item", 0)], []) ∧
    processCooldown (FS.mk ["item"] [] fun _ => none) 5 6 [("item", 0)] =
      ([], ["item"]) := by
  refine ⟨?_, ?_, ?_, ?_, by decide, by decide⟩
  · intro hmem
    simp [queueItem, hmem]
  · intro he hmem
    simp [queueItem, he, hmem]
  · intro p t
    simp [processCooldown, List.mem_filter]
  · intro p
    constructor
    · intro hp
      rcases List.mem_filter.mp hp with ⟨hp1, hex⟩
      rcases List.mem_map.mp hp1 with ⟨⟨q, t⟩, hqt, rfl⟩
      rcases List.mem_filter.mp hqt with ⟨hin, hage⟩
      exact ⟨t, hin, by simpa using hage, by simpa using hex⟩
    · rintro ⟨t, hin, hage, hex⟩
      refine List.mem_filter.mpr ⟨?_, by simpa using hex⟩
      exact List.mem_map.mpr ⟨(p, t), List.mem_filter.mpr ⟨hin, by simpa using hage⟩, rfl⟩

/-- Witness for C2: re-observing the pending item at t = 9 leaves its
first-seen timestamp 0 unchanged. -/
theorem cooldown_spec_witness :
    queueItem true [("item", 0)] "item" 9 = [("item", 0)] :=
  (cooldown_spec (FS.mk [] [] fun _ => none) 5 9 [("item", 0)] "item" true).1 (by decide)

/-- C6: while the engine is paused a tick moves nothing; a watch event
appends an eligible non-pending path to the pending map without consulting
the running flag; pause is a no-op when already paused and resume a no-op
when already running; pause on a running engine clears the running flag;
and after resume, a tick processes every pending item older than the
cooldown that still exists. -/
theorem pause_resume_spec (cfg : Config) (fs : FS) (now : Int) (s : EngineState)
    (path : String) :
    (s.isRunning = false → tick cfg fs now s = s) ∧
    ((watchEvent cfg fs path now s).isRunning = s.isRunning ∧
      (watchEvent cfg fs path now s).organized = s.organized) ∧
    (shouldProcess cfg fs path = true → path ∉ s.cooldownFiles.map Prod.fst →
      (watchEvent cfg fs path now s).cooldownFiles = s.cooldownFiles ++ [(path, now)]) ∧
    (s.isRunning = false → pauseEngine s = s) ∧
    (s.isRunning = true → resumeEngine s = s) ∧
    (s.isRunning = true → (pauseEngine s).isRunning = false) ∧
    (s.isRunning = false → ∀ p t, (p, t) ∈ s.cooldownFiles →
      now - t > cfg.cooldown_period_seconds → fs.existsPath p →
      p ∈ (tick cfg fs now (resumeEngine s)).organized) := by
  refine ⟨?_, ⟨rfl, rfl⟩, ?_, ?_, ?_, ?_, ?_⟩
  · intro h
    simp [tick, h]
  · intro hsp hmem
    simp [watchEvent, queueItem, hsp, hmem]
  · intro h
    simp [pauseEngine, h]
  · intro h
    simp [resumeEngine, h]
  · intro h
    simp [pauseEngine, h]
  · intro h p t hin hage hex
    have hres : resumeEngine s =
        EngineState.mk true s.cooldownFiles s.organized := by
      simp [resumeEngine, h]
    have hmem2 : p ∈ (processCooldown fs cfg.cooldown_period_seconds now s.cooldownFiles).2 := by
      refine List.mem_filter.mpr ⟨?_, by simpa using hex⟩
      exact List.mem_map.mpr ⟨(p, t), List.mem_filter.mpr ⟨hin, by simpa using hage⟩, rfl⟩
    have htick : tick cfg fs now (EngineState.mk true s.cooldownFiles s.organized) =
        EngineState.mk true
          (processCooldown fs cfg.cooldown_period_seconds now s.cooldownFiles).1
          (s.organized ++
            (processCooldown fs cfg.cooldown_period_seconds now s.cooldownFiles).2) := rfl
    rw [hres, htick]
    exact List.mem_append.mpr (Or.inr hmem2)

/-- Witness for C6: a paused engine holding an item queued at t = 0
processes it on the first tick after resume at t = 6 with cooldown 5. -/
theorem pause_resume_spec_witness :
    "t/b.pdf" ∈ (tick exampleConfig exampleFS 6
      (resumeEngine (EngineState.mk false [("t/b.pdf", 0)] []))).organized := by
  have h := pause_resume_spec exampleConfig exampleFS 6
    (EngineState.mk false [("t/b.pdf", 0)] []) "t/b.pdf"
  exact h.2.2.2.2.2.2 rfl "t/b.pdf" 0 (by decide) (by decide) (by decide)

/-- C7: when the loop body of `TidyCoreEngine.run` raises, the except
clause logs the error and the finally clause stops the observer and logs a
stop message, so the loop never terminates silently; but neither clause
touches the running flag, so after a crash while running the engine state
still claims to be running instead of being marked stopped. -/
theorem runLoopCrash_keeps_running_flag :
    (runLoopCrash (EngineState.mk true [] [])).loggedCritical = true ∧
    (runLoopCrash (EngineState.mk true [] [])).loggedStopped = true ∧
    (runLoopCrash (EngineState.mk true [] [])).observerStopped = true ∧
    (runLoopCrash (EngineState.mk true [] [])).state.isRunning = true :=
  ⟨rfl, rfl, rfl, rfl⟩

/-- C8: loading fails with the FileNotFoundError variant exactly when the
configuration file is missing, with the ValueError variant when the target
folder is absent, empty or not a directory, the two variants are distinct,
and on success the parsed configuration is returned with its rule
extensions lowercased. -/
theorem load_config_spec (fs : FS) (path : String) (parsed : RawConfig) :
    (¬ fs.existsPath path →
      load_config fs path parsed =
        Except.error (ConfigError.fileNotFound
          ("Configuration file not found at: " ++ path))) ∧
    (fs.existsPath path → parsed.target_folder = none →
      ∃ m, load_config fs path parsed = Except.error (ConfigError.valueError m)) ∧
    (∀ tf, fs.existsPath path → parsed.target_folder = some tf →
      (tf = "" ∨ tf ∉ fs.dirs) →
      ∃ m, load_config fs path parsed = Except.error (ConfigError.valueError m)) ∧
    (∀ m1 m2, ConfigError.fileNotFound m1 ≠ ConfigError.valueError m2) ∧
    (∀ tf, fs.existsPath path → parsed.target_folder = some tf → tf ≠ "" →
      tf ∈ fs.dirs →
      load_config fs path parsed =
        Except.ok { parsed with rules := normalizeRules parsed.rules }) := by
  refine ⟨?_, ?_, ?_, ?_, ?_⟩
  · intro h
    simp [load_config, h]
  · intro h htf
    refine ⟨"The target_folder specified in " ++ path ++ " is invalid or does not exist.", ?_⟩
    simp [load_config, h, htf]
  · intro tf h htf hbad
    refine ⟨"The target_folder specified in " ++ path ++ " is invalid or does not exist.", ?_⟩
    simp only [load_config, if_neg (not_not_intro h), htf]
    rw [if_pos hbad]
  · intro m1 m2 hcon
    cases hcon
  · intro tf h htf hne hdir
    simp only [load_config, if_neg (not_not_intro h), htf]
    rw [if_neg (by push_neg; exact ⟨hne, hdir⟩)]

/-- Witness for C8: a present configuration file naming the existing target
directory t loads successfully with lowercased rules, and a missing file
gives the FileNotFoundError variant. -/
theorem load_config_spec_witness :
    load_config (FS.mk ["config.json"] ["t"] fun _ => none) "config.json"
        (RawConfig.mk (some "t") exampleRules [] 5 "smart_scan") =
      Except.ok (RawConfig.mk (some "t") (normalizeRules exampleRules) [] 5 "smart_scan") ∧
    load_config (FS.mk [] [] fun _ => none) "config.json"
        (RawConfig.mk (some "t") exampleRules [] 5 "smart_scan") =
      Except.error (ConfigError.fileNotFound
        ("Configuration file not found at: " ++ "config.json")) := by
  constructor
  · exact (load_config_spec (FS.mk ["config.json"] ["t"] fun _ => none) "config.json"
      (RawConfig.mk (some "t") exampleRules [] 5 "smart_scan")).2.2.2.2 "t"
      (by decide) rfl (by decide) (by decide)
  · exact (load_config_spec (FS.mk [] [] fun _ => none) "config.json"
      (RawConfig.mk (some "t") exampleRules [] 5 "smart_scan")).1 (by decide)

/-- C9: undo with a vanished source emits an error notification and moves
nothing; with the source present it moves the item back to the
conflict-resolved original path, emitting a notification; when the
original path is free, the original name is restored exactly, as in the
concrete photo.jpg instance. -/
theorem undoMove_spec (fsp : List FPath) (source original : FPath) :
    (source ∉ fsp → undoMove fsp source original = (none, true)) ∧
    (source ∈ fsp → undoMove fsp source original =
      (some (resolveConflict fsp original), true)) ∧
    (source ∈ fsp → original ∉ fsp →
      undoMove fsp source original = (some original, true)) ∧
    (undoMove fsp source original).2 = true ∧
    undoMove [FPath.mk "X/Images" "photo.jpg"] (FPath.mk "X/Images" "photo.jpg")
        (FPath.mk "X" "photo.jpg") = (some (FPath.mk "X" "photo.jpg"), true) := by
  refine ⟨?_, ?_, ?_, ?_, by decide⟩
  · intro h
    simp [undoMove, h]
  · intro h
    simp [undoMove, h]
  · intro h ho
    simp [undoMove, h, resolveConflict, ho]
  · by_cases h : source ∈ fsp <;> simp [undoMove, h]

/-- Witness for C9: undo of a vanished source moves nothing and still emits
the notification. -/
theorem undoMove_spec_witness :
    undoMove [] (FPath.mk "a" "b.txt") (FPath.mk "c" "d.txt") = (none, true) :=
  (undoMove_spec [] (FPath.mk "a" "b.txt") (FPath.mk "c" "d.txt")).1 (by decide)

/-- C5 counterexample: the path gone.txt matches none of the four rejection
conditions of the claim (not in the ignore list by name or extension, not
hidden, not a directory, and the folder strategy is not "ignore"), yet the
filter rejects it, because it does not exist on disk. -/
theorem shouldProcess_nonexistent_counterexample :
    basename "gone.txt" ∉ plainConfig.ignore_list ∧
    lowerStr (extOf (basename "gone.txt")) ∉ plainConfig.ignore_list ∧
    startsWithDot (basename "gone.txt") = false ∧
    "gone.txt" ∉ emptyFS.dirs ∧
    plainConfig.folder_handling_strategy ≠ "ignore" ∧
    shouldProcess plainConfig emptyFS "gone.txt" = false := by decide

/-- C5 amended: the eligibility filter accepts a path exactly when it
exists on disk, is not rejected by the "ignore" folder strategy, has
neither its base name nor its nonempty lowercased extension in the ignore
list, is not hidden, and is not a directory named after a managed
category. -/
theorem shouldProcess_spec (cfg : Config) (fs : FS) (path : String) :
    shouldProcess cfg fs path = true ↔
      (fs.existsPath path ∧
       ¬ (cfg.folder_handling_strategy = "ignore" ∧ path ∈ fs.dirs ∧
          basename path ∉ managedCategories cfg) ∧
       basename path ∉ cfg.ignore_list ∧
       ¬ (lowerStr (extOf (basename path)) ≠ "" ∧
          lowerStr (extOf (basename path)) ∈ cfg.ignore_list) ∧
       startsWithDot (basename path) = false ∧
       ¬ (path ∈ fs.dirs ∧ basename path ∈ managedCategories cfg)) := by
  simp only [shouldProcess]
  split_ifs with h1 h2 h3 h4 h5
  · exact iff_of_false (by simp) (fun hr => hr.2.1 h1)
  · refine iff_of_false (by simp) ?_
    rintro ⟨-, -, hni, hnx, -, -⟩
    rcases h3 with h3 | h3
    · exact hni h3
    · exact hnx h3
  · refine iff_of_false (by simp) ?_
    rintro ⟨-, -, -, -, hdot, -⟩
    rw [hdot] at h4
    exact Bool.false_ne_true h4
  · exact iff_of_false (by simp) (fun hr => hr.2.2.2.2.2 h5)
  · have hdot : startsWithDot (basename path) = false := by
      cases hsw : startsWithDot (basename path)
      · rfl
      · exact absurd hsw h4
    exact iff_of_true rfl
      ⟨h2, h1, (not_or.mp h3).1, (not_or.mp h3).2, hdot, h5⟩
  · exact iff_of_false (by simp) (fun hr => h2 hr.1)

/-- Witness for amended C5: an existing ordinary file passing every check
is eligible. -/
theorem shouldProcess_spec_witness :
    shouldProcess exampleConfig exampleFS "t/b.pdf" = true :=
  (shouldProcess_spec exampleConfig exampleFS "t/b.pdf").mpr (by decide)

/-! Lemmas on the folder classifier tally and maximum. -/

lemma vmax_cons (kv : String × Nat) (l : List (String × Nat)) :
    vmax (kv :: l) = max kv.2 (vmax l) := rfl

lemma le_vmax (l : List (String × Nat)) : ∀ kv ∈ l, kv.2 ≤ vmax l := by
  induction l with
  | nil => intro kv h; cases h
  | cons x rest ih =>
    intro kv h
    rcases List.mem_cons.mp h with rfl | h
    · rw [vmax_cons]; exact le_max_left _ _
    · rw [vmax_cons]; exact le_trans (ih kv h) (le_max_right _ _)

lemma foldl_pickMax_of_le (l : List (String × Nat)) :
    ∀ b : String × Nat, vmax l ≤ b.2 → l.foldl pickMax b = b := by
  induction l with
  | nil => intro b _; rfl
  | cons x rest ih =>
    intro b hb
    rw [vmax_cons] at hb
    rw [List.foldl_cons]
    have hx : ¬ x.2 > b.2 := not_lt.mpr (le_trans (le_max_left _ _) hb)
    have hpk : pickMax b x = b := by unfold pickMax; rw [if_neg hx]
    rw [hpk]
    exact ih b (le_trans (le_max_right _ _) hb)

lemma foldl_pickMax_find (l : List (String × Nat)) :
    ∀ (b : String × Nat) (M : Nat), M = vmax l → b.2 < M →
      ∃ r, l.find? (fun kv => kv.2 == M) = some r ∧ l.foldl pickMax b = r ∧ r.2 = M := by
  induction l with
  | nil =>
    intro b M hM hb
    rw [hM] at hb
    exact absurd hb (Nat.not_lt_zero _)
  | cons x rest ih =>
    intro b M hM hb
    rw [vmax_cons] at hM
    by_cases hx : x.2 = M
    · refine ⟨x, ?_, ?_, hx⟩
      · rw [List.find?_cons_of_pos _ (by simp [hx])]
      · rw [List.foldl_cons]
        have hgt : x.2 > b.2 := hx ▸ hb
        have hpk : pickMax b x = x := by unfold pickMax; rw [if_pos hgt]
        rw [hpk]
        refine foldl_pickMax_of_le rest x ?_
        rw [hx, hM]
        exact le_max_right _ _
    · have hxle : x.2 ≤ M := hM ▸ le_max_left _ _
      have hxlt : x.2 < M := lt_of_le_of_ne hxle hx
      have hrest : M = vmax rest := by
        rcases le_or_lt (vmax rest) x.2 with hc | hc
        · exact absurd (hM.trans (max_eq_left hc)).symm hx
        · rw [hM, max_eq_right hc.le]
      have hacc : (pickMax b x).2 < M := by
        unfold pickMax
        split_ifs
        · exact hxlt
        · exact hb
      obtain ⟨r, hfind, hfold, hr⟩ := ih (pickMax b x) M hrest hacc
      refine ⟨r, ?_, ?_, hr⟩
      · rw [List.find?_cons_of_neg _ (by simp [hx])]
        exact hfind
      · rw [List.foldl_cons]
        exact hfold

lemma maxEntryOpt_find (l : List (String × Nat)) (hne : l ≠ []) :
    ∃ r, l.find? (fun kv => kv.2 == vmax l) = some r ∧
      maxEntryOpt l = some r ∧ r.2 = vmax l := by
  match l, hne with
  | kv :: rest, _ =>
    by_cases hk : kv.2 = vmax (kv :: rest)
    · refine ⟨kv, ?_, ?_, hk⟩
      · rw [List.find?_cons_of_pos _ (by simp [hk])]
      · simp only [maxEntryOpt]
        rw [foldl_pickMax_of_le rest kv ?_]
        rw [vmax_cons] at hk
        exact max_eq_left_iff.mp hk.symm
    · have hle : kv.2 ≤ vmax (kv :: rest) := le_vmax _ kv (List.mem_cons_self _ _)
      have hlt : kv.2 < vmax (kv :: rest) := lt_of_le_of_ne hle hk
      have hrest : vmax (kv :: rest) = vmax rest := by
        rcases le_or_lt (vmax rest) kv.2 with hc | hc
        · exact absurd (by rw [vmax_cons]; exact (max_eq_left hc).symm) hk
        · rw [vmax_cons]
          exact max_eq_right hc.le
      obtain ⟨r, hfind, hfold, hr⟩ := foldl_pickMax_find rest kv (vmax (kv :: rest)) hrest hlt
      refine ⟨r, ?_, ?_, hr⟩
      · rw [List.find?_cons_of_neg _ (by simp [hk])]
        exact hfind
      · simp only [maxEntryOpt]
        rw [hfold]

lemma bump_keys (counts : List (String × Nat)) (c : String) :
    (bump counts c).map Prod.fst = counts.map Prod.fst := by
  induction counts with
  | nil => rfl
  | cons kv rest ih =>
    obtain ⟨k, n⟩ := kv
    simp only [bump]
    split_ifs with hk
    · simp
    · simp only [List.map_cons]
      rw [ih]

lemma tallyFiles_keys (cfg : Config) (fs : FS) (entries : List String) :
    (tallyFiles cfg fs entries).map Prod.fst = cfg.rules.map Prod.fst := by
  have h : ∀ (es : List String) (counts : List (String × Nat)),
      ((es.foldl (fun cs p => bump cs (fileCategory cfg fs p).1) counts).map Prod.fst) =
        counts.map Prod.fst := by
    intro es
    induction es with
    | nil => intro counts; rfl
    | cons e rest ih =>
      intro counts
      rw [List.foldl_cons, ih, bump_keys]
  rw [tallyFiles, h]
  simp [initCounts, List.map_map, Function.comp]

lemma bump_map_add (counts : List (String × Nat)) (c : String) (A : String → Nat)
    (hnd : (counts.map Prod.fst).Nodup) :
    (bump counts c).map (fun kv => (kv.1, kv.2 + A kv.1)) =
      counts.map (fun kv => (kv.1, kv.2 + ((if c = kv.1 then 1 else 0) + A kv.1))) := by
  induction counts with
  | nil => rfl
  | cons kv rest ih =>
    obtain ⟨k, n⟩ := kv
    simp only [List.map_cons, List.nodup_cons] at hnd
    simp only [bump]
    by_cases hk : k = c
    · rw [if_pos hk]
      simp only [List.map_cons]
      refine congrArg₂ List.cons ?_ ?_
      · have : c = k := hk.symm
        rw [if_pos this]
        simp [Nat.add_assoc]
      · refine List.map_congr_left ?_
        intro kv2 h2
        have hne : c ≠ kv2.1 := by
          intro hc
          exact hnd.1 (by
            rw [hk, hc]
            exact List.mem_map.mpr ⟨kv2, h2, rfl⟩)
        rw [if_neg hne]
        simp
    · rw [if_neg hk]
      simp only [List.map_cons]
      refine congrArg₂ List.cons ?_ ?_
      · have hne : c ≠ k := fun hc => hk hc.symm
        rw [if_neg hne]
        simp
      · exact ih hnd.2

lemma foldl_bump_count (cfg : Config) (fs : FS) (entries : List String) :
    ∀ counts : List (String × Nat), (counts.map Prod.fst).Nodup →
      entries.foldl (fun cs p => bump cs (fileCategory cfg fs p).1) counts =
        counts.map (fun kv => (kv.1, kv.2 +
          (entries.filter (fun p => (fileCategory cfg fs p).1 == kv.1)).length)) := by
  induction entries with
  | nil =>
    intro counts _
    simp
  | cons e rest ih =>
    intro counts hnd
    rw [List.foldl_cons]
    rw [ih (bump counts (fileCategory cfg fs e).1) (by rw [bump_keys]; exact hnd)]
    rw [bump_map_add counts (fileCategory cfg fs e).1
      (fun k => (rest.filter (fun p => (fileCategory cfg fs p).1 == k)).length) hnd]
    refine List.map_congr_left ?_
    intro kv _
    refine congrArg (fun m => (kv.1, kv.2 + m)) ?_
    rw [List.filter_cons]
    by_cases hc : (fileCategory cfg fs e).1 = kv.1
    · rw [if_pos hc,
        if_pos (show ((fileCategory cfg fs e).1 == kv.1) = true by simp [hc])]
      simp [Nat.add_comm]
    · rw [if_neg hc,
        if_neg (show ¬ ((fileCategory cfg fs e).1 == kv.1) = true by simp [hc])]
      simp

/-- C3: the folder classifier returns "Others" on a walk failure (caught
exception) and on an all-zero tally; the tally ranges over exactly the
rule categories (zero counts included) and counts the walked files whose
Rule-Matcher category is that category; and on a nonzero tally the result
is the first category in tally order achieving the maximum count. -/
theorem folderDominant_spec (cfg : Config) (fs : FS) (folder : String) :
    (fs.walk folder = none → folderDominantCategory cfg fs folder = "Others") ∧
    (∀ entries, fs.walk folder = some entries →
      ((tallyFiles cfg fs entries).map Prod.fst = cfg.rules.map Prod.fst) ∧
      ((cfg.rules.map Prod.fst).Nodup →
        tallyFiles cfg fs entries = cfg.rules.map (fun kv =>
          (kv.1, (entries.filter (fun p => (fileCategory cfg fs p).1 == kv.1)).length))) ∧
      ((∀ kv ∈ tallyFiles cfg fs entries, kv.2 = 0) →
        folderDominantCategory cfg fs folder = "Others") ∧
      (¬ (∀ kv ∈ tallyFiles cfg fs entries, kv.2 = 0) →
        ∃ n, (tallyFiles cfg fs entries).find?
            (fun kv => kv.2 == vmax (tallyFiles cfg fs entries)) =
            some (folderDominantCategory cfg fs folder, n) ∧
          n = vmax (tallyFiles cfg fs entries) ∧
          ∀ kv ∈ tallyFiles cfg fs entries, kv.2 ≤ n)) := by
  constructor
  · intro hw
    simp [folderDominantCategory, hw]
  · intro entries hw
    refine ⟨tallyFiles_keys cfg fs entries, ?_, ?_, ?_⟩
    · intro hnd
      rw [tallyFiles, foldl_bump_count cfg fs entries (initCounts cfg)
        (by rw [show (initCounts cfg).map Prod.fst = cfg.rules.map Prod.fst by
              simp [initCounts, List.map_map, Function.comp]]
            exact hnd)]
      simp [initCounts, List.map_map, Function.comp]
    · intro hz
      have hall : (tallyFiles cfg fs entries).all (fun kv => kv.2 == 0) = true :=
        List.all_eq_true.mpr (fun kv h => by simpa using hz kv h)
      simp [folderDominantCategory, hw, hall]
    · intro hnz
      have hne : tallyFiles cfg fs entries ≠ [] := by
        intro he
        exact hnz (fun kv h => by rw [he] at h; cases h)
      obtain ⟨r, hfind, hmax, hr2⟩ := maxEntryOpt_find (tallyFiles cfg fs entries) hne
      have hall : (tallyFiles cfg fs entries).all (fun kv => kv.2 == 0) = false := by
        cases h : (tallyFiles cfg fs entries).all (fun kv => kv.2 == 0)
        · rfl
        · exact absurd (fun kv hk => by simpa using List.all_eq_true.mp h kv hk) hnz
      have hres : folderDominantCategory cfg fs folder = r.1 := by
        simp only [folderDominantCategory, hw, hall, Bool.false_eq_true, if_false]
        rw [hmax]
      refine ⟨r.2, ?_, hr2, fun kv h => hr2 ▸ le_vmax _ kv h⟩
      rw [hres]
      simpa using hfind

/-- Witness for C3: in the example folder holding one .jpg and two .pdf
files, the tally is Documents 2, Images 1 and the classifier picks
Documents. -/
theorem folderDominant_spec_witness :
    folderDominantCategory exampleConfig
      (FS.mk ["t/f/x.jpg", "t/f/y.pdf", "t/f/z.pdf"] ["t/f"]
        (fun d => if d = "t/f" then some ["t/f/x.jpg", "t/f/y.pdf", "t/f/z.pdf"] else none))
      "t/f" = "Documents" := by
  have h := (folderDominant_spec exampleConfig
    (FS.mk ["t/f/x.jpg", "t/f/y.pdf", "t/f/z.pdf"] ["t/f"]
      (fun d => if d = "t/f" then some ["t/f/x.jpg", "t/f/y.pdf", "t/f/z.pdf"] else none))
    "t/f").2 ["t/f/x.jpg", "t/f/y.pdf", "t/f/z.pdf"] (by simp)
  have h4 := h.2.2.2 (by decide)
  obtain ⟨n, hfind, hn, -⟩ := h4
  have : (some (folderDominantCategory exampleConfig
      (FS.mk ["t/f/x.jpg", "t/f/y.pdf", "t/f/z.pdf"] ["t/f"]
        (fun d => if d = "t/f" then some ["t/f/x.jpg", "t/f/y.pdf", "t/f/z.pdf"] else none))
      "t/f", n) : Option (String × Nat)) = some ("Documents", 2) := by
    rw [← hfind]
    decide
  simpa using congrArg (Option.map Prod.fst) this

/-! Lemmas for the managed-category invariant. -/

lemma matchRules_fst_mem (rules : List (String × RuleVal)) (ext : String) :
    (matchRules rules ext).1 ∈ rules.map Prod.fst ++ ["Others"] := by
  induction rules with
  | nil => simp [matchRules]
  | cons kv rest ih =>
    obtain ⟨cat, rv⟩ := kv
    cases rv with
    | flat exts =>
      simp only [matchRules]
      split_ifs with h
      · simp
      · simp only [List.map_cons, List.cons_append]
        exact List.mem_cons_of_mem _ ih
    | nested subs =>
      simp only [matchRules]
      split_ifs with h
      · simp
      · cases hfind : findSubMatch subs ext with
        | some sub => simp
        | none =>
          simp only [List.map_cons, List.cons_append]
          exact List.mem_cons_of_mem _ ih

lemma foldl_pickMax_mem (l : List (String × Nat)) :
    ∀ b : String × Nat, l.foldl pickMax b ∈ b :: l := by
  induction l with
  | nil => intro b; simp
  | cons x rest ih =>
    intro b
    rw [List.foldl_cons]
    have hpk : pickMax b x = b ∨ pickMax b x = x := by
      unfold pickMax
      split_ifs
      · exact Or.inr rfl
      · exact Or.inl rfl
    rcases List.mem_cons.mp (ih (pickMax b x)) with h | h
    · rcases hpk with h2 | h2
      · rw [h, h2]; exact List.mem_cons_self _ _
      · rw [h, h2]; exact List.mem_cons_of_mem _ (List.mem_cons_self _ _)
    · exact List.mem_cons_of_mem _ (List.mem_cons_of_mem _ h)

lemma maxEntryOpt_mem (l : List (String × Nat)) (r : String × Nat)
    (h : maxEntryOpt l = some r) : r ∈ l := by
  cases l with
  | nil => cases h
  | cons kv rest =>
    simp only [maxEntryOpt] at h
    obtain rfl : rest.foldl pickMax kv = r := Option.some.inj h
    exact foldl_pickMax_mem rest kv

lemma folderDominant_mem_managed (cfg : Config) (fs : FS) (folder : String) :
    folderDominantCategory cfg fs folder ∈ managedCategories cfg := by
  have hothers : "Others" ∈ managedCategories cfg := by
    simp [managedCategories]
  cases hw : fs.walk folder with
  | none => simpa [folderDominantCategory, hw] using hothers
  | some entries =>
    simp only [folderDominantCategory, hw]
    split_ifs with hz
    · exact hothers
    · cases hm : maxEntryOpt (tallyFiles cfg fs entries) with
      | none => exact hothers
      | some r =>
        have hr : r ∈ tallyFiles cfg fs entries := maxEntryOpt_mem _ r hm
        have : r.1 ∈ (tallyFiles cfg fs entries).map Prod.fst :=
          List.mem_map.mpr ⟨r, hr, rfl⟩
        rw [tallyFiles_keys] at this
        exact List.mem_append.mpr (Or.inl this)

lemma getCategory_fst_mem (cfg : Config) (fs : FS) (path : String) :
    (getCategory cfg fs path).1 ∈ managedCategories cfg := by
  have hothers : "Others" ∈ managedCategories cfg := by
    simp [managedCategories]
  simp only [getCategory]
  split_ifs with h1 h2 h3 h4 h5
  · exact folderDominant_mem_managed cfg fs path
  · exact hothers
  · exact hothers
  · exact hothers
  · have := matchRules_fst_mem cfg.rules (fileExtOf path)
    simpa [managedCategories] using this
  · exact hothers

lemma shouldProcess_managed_dir (cfg : Config) (fs : FS) (p : String)
    (hd : p ∈ fs.dirs) (hm : basename p ∈ managedCategories cfg) :
    shouldProcess cfg fs p = false := by
  simp only [shouldProcess]
  split_ifs with h1 h2 h3 h4 h5
  · rfl
  · rfl
  · rfl
  · rfl
  · exact absurd ⟨hd, hm⟩ h5
  · rfl

/-- C10: every category the engine computes, for files and for directories
under every folder strategy, is a rule-table key or the literal "Others",
so it lies in the managed category set; the destination directory of
`_organize_item` therefore starts with a managed category directly under
the target folder; and the eligibility filter rejects every directory
named after a managed category, so the engine never re-organizes a
destination folder it created itself. -/
theorem engine_destination_invariant (cfg : Config) (fs : FS) (path : String) :
    (getCategory cfg fs path).1 ∈ managedCategories cfg ∧
    (∃ rest, organizeDestination cfg fs path = (getCategory cfg fs path).1 :: rest) ∧
    (∀ p, p ∈ fs.dirs → basename p ∈ managedCategories cfg →
      shouldProcess cfg fs p = false) := by
  refine ⟨getCategory_fst_mem cfg fs path, ?_,
    fun p hd hm => shouldProcess_managed_dir cfg fs p hd hm⟩
  unfold organizeDestination
  cases hsub : (getCategory cfg fs path).2 with
  | none => exact ⟨[], by simp [hsub]⟩
  | some sub =>
    by_cases hne : sub ≠ (getCategory cfg fs path).1
    · exact ⟨[sub], by simp [hsub, hne]⟩
    · exact ⟨[], by simp [hsub, hne]⟩

/-- Witness for C10: the engine-managed directory t/Images is rejected by
the eligibility filter of the example configuration. -/
theorem engine_destination_invariant_witness :
    shouldProcess exampleConfig exampleFS "t/Images" = false :=
  (engine_destination_invariant exampleConfig exampleFS "t/Images").2.2
    "t/Images" (by decide) (by decide)

/-! Lemmas for the conflict resolver. -/

lemma decDigitsAux_eq_digits (fuel : Nat) :
    ∀ n, n ≤ fuel → decDigitsAux fuel n = Nat.digits 10 n := by
  induction fuel with
  | zero =>
    intro n h
    obtain rfl : n = 0 := Nat.le_zero.mp h
    simp [decDigitsAux]
  | succ fuel ih =>
    intro n h
    by_cases hn : n = 0
    · subst hn
      simp [decDigitsAux]
    · have hpos : 0 < n := Nat.pos_of_ne_zero hn
      have hlt : n / 10 < n := Nat.div_lt_self hpos (by norm_num)
      simp only [decDigitsAux, if_neg hn]
      rw [ih (n / 10) (by omega), Nat.digits_def' (by norm_num : (1:ℕ) < 10) hpos]

lemma decDigits_eq_digits (n : Nat) : decDigits n = Nat.digits 10 n :=
  decDigitsAux_eq_digits n n le_rfl

lemma decDigitChar_inj : ∀ d < 10, ∀ e < 10, decDigitChar d = decDigitChar e → d = e := by
  decide

lemma map_decDigitChar_inj : ∀ l1 l2 : List Nat, (∀ d ∈ l1, d < 10) →
    (∀ d ∈ l2, d < 10) → l1.map decDigitChar = l2.map decDigitChar → l1 = l2 := by
  intro l1
  induction l1 with
  | nil =>
    intro l2 _ _ h
    cases l2 with
    | nil => rfl
    | cons b u => simp at h
  | cons a t ih =>
    intro l2 h1 h2 h
    cases l2 with
    | nil => simp at h
    | cons b u =>
      simp only [List.map_cons, List.cons.injEq] at h
      have hab : a = b := decDigitChar_inj a (h1 a (List.mem_cons_self _ _))
        b (h2 b (List.mem_cons_self _ _)) h.1
      rw [hab, ih u (fun d hd => h1 d (List.mem_cons_of_mem _ hd))
        (fun d hd => h2 d (List.mem_cons_of_mem _ hd)) h.2]

lemma decimalStr_inj_pos (m n : Nat) (hm : 0 < m) (hn : 0 < n)
    (h : decimalStr m = decimalStr n) : m = n := by
  unfold decimalStr at h
  rw [if_neg hm.ne', if_neg hn.ne'] at h
  have hdata : (decDigits m).reverse.map decDigitChar =
      (decDigits n).reverse.map decDigitChar := congrArg String.data h
  have hd1 : ∀ d ∈ (decDigits m).reverse, d < 10 := by
    intro d hd
    rw [decDigits_eq_digits] at hd
    exact Nat.digits_lt_base (by norm_num) (List.mem_reverse.mp hd)
  have hd2 : ∀ d ∈ (decDigits n).reverse, d < 10 := by
    intro d hd
    rw [decDigits_eq_digits] at hd
    exact Nat.digits_lt_base (by norm_num) (List.mem_reverse.mp hd)
  have hrev := map_decDigitChar_inj _ _ hd1 hd2 hdata
  have hdig := List.reverse_injective hrev
  rw [decDigits_eq_digits, decDigits_eq_digits] at hdig
  exact Nat.digits_inj_iff.mp hdig

lemma conflictName_inj (dest : FPath) (k l : Nat) (hk : 0 < k) (hl : 0 < l)
    (h : conflictName dest k = conflictName dest l) : k = l := by
  unfold conflictName at h
  have hdata := congrArg String.data h
  simp only [String.data_append, List.append_assoc] at hdata
  have h1 := List.append_cancel_left hdata
  have h2 := List.append_cancel_left h1
  have h3 := List.append_cancel_right h2
  exact decimalStr_inj_pos k l hk hl (String.ext h3)

lemma candidateAt_inj (dest : FPath) (k l : Nat) (hk : 0 < k) (hl : 0 < l)
    (h : candidateAt dest k = candidateAt dest l) : k = l := by
  unfold candidateAt at h
  exact conflictName_inj dest k l hk hl (congrArg FPath.name h)

lemma resolveAux_none_mem (fsp : List FPath) (dest : FPath) :
    ∀ fuel k, resolveAux fsp dest fuel k = none →
      ∀ j < fuel, candidateAt dest (k + j) ∈ fsp := by
  intro fuel
  induction fuel with
  | zero =>
    intro k _ j hj
    exact absurd hj (Nat.not_lt_zero _)
  | succ fuel ih =>
    intro k h j hj
    simp only [resolveAux] at h
    split_ifs at h with hc
    cases j with
    | zero => simpa using hc
    | succ i =>
      have hmem := ih (k + 1) h i (by omega)
      rw [show k + (i + 1) = (k + 1) + i by omega]
      exact hmem

lemma resolveAux_some_spec (fsp : List FPath) (dest : FPath) :
    ∀ fuel k r, resolveAux fsp dest fuel k = some r →
      ∃ j, j < fuel ∧ r = candidateAt dest (k + j) ∧ r ∉ fsp ∧
        ∀ i < j, candidateAt dest (k + i) ∈ fsp := by
  intro fuel
  induction fuel with
  | zero =>
    intro k r h
    cases h
  | succ fuel ih =>
    intro k r h
    simp only [resolveAux] at h
    split_ifs at h with hc
    · obtain ⟨j, hjf, hr, hnot, hall⟩ := ih (k + 1) r h
      refine ⟨j + 1, by omega, ?_, hnot, ?_⟩
      · rw [show k + (j + 1) = (k + 1) + j by omega]
        exact hr
      · intro i hi
        cases i with
        | zero => simpa using hc
        | succ i2 =>
          rw [show k + (i2 + 1) = (k + 1) + i2 by omega]
          exact hall i2 (by omega)
    · obtain rfl : candidateAt dest k = r := Option.some.inj h
      exact ⟨0, by omega, rfl, hc, fun i hi => absurd hi (Nat.not_lt_zero _)⟩

lemma resolveAux_isSome (fsp : List FPath) (dest : FPath) :
    resolveAux fsp dest (fsp.length + 1) 1 ≠ none := by
  intro h
  have hmem := resolveAux_none_mem fsp dest (fsp.length + 1) 1 h
  have hnd : ((List.range (fsp.length + 1)).map
      (fun j => candidateAt dest (1 + j))).Nodup := by
    refine List.Nodup.map_on ?_ (List.nodup_range _)
    intro x _ y _ hxy
    have := candidateAt_inj dest (1 + x) (1 + y) (by omega) (by omega) hxy
    omega
  have hsub : ∀ q ∈ (List.range (fsp.length + 1)).map
      (fun j => candidateAt dest (1 + j)), q ∈ fsp := by
    intro q hq
    rcases List.mem_map.mp hq with ⟨j, hj, rfl⟩
    exact hmem j (List.mem_range.mp hj)
  have hcard : ((List.range (fsp.length + 1)).map
      (fun j => candidateAt dest (1 + j))).toFinset.card = fsp.length + 1 := by
    rw [List.toFinset_card_of_nodup hnd]
    simp
  have hsubset : ((List.range (fsp.length + 1)).map
      (fun j => candidateAt dest (1 + j))).toFinset ⊆ fsp.toFinset := by
    intro q hq
    exact List.mem_toFinset.mpr (hsub q (List.mem_toFinset.mp hq))
  have hle1 := Finset.card_le_card hsubset
  have hle2 := List.toFinset_card_le fsp
  omega

/-- C4: the conflict resolver returns the desired destination unchanged
when it does not exist; otherwise it returns the numbered candidate
"stem (c)suffix" in the same parent for the smallest counter c at least 1
whose name is free; the returned path never lies in the fixed existing
set; and concretely resolving a.txt against existing a.txt yields
a (1).txt, and against existing a.txt and a (1).txt yields a (2).txt. -/
theorem resolveConflict_spec (fsp : List FPath) (dest : FPath) :
    (dest ∉ fsp → resolveConflict fsp dest = dest) ∧
    (dest ∈ fsp → ∃ c, 1 ≤ c ∧ resolveConflict fsp dest = candidateAt dest c ∧
      candidateAt dest c ∉ fsp ∧ ∀ k, 1 ≤ k → k < c → candidateAt dest k ∈ fsp) ∧
    resolveConflict fsp dest ∉ fsp ∧
    resolveConflict [FPath.mk "d" "a.txt"] (FPath.mk "d" "a.txt") =
      FPath.mk "d" "a (1).txt" ∧
    resolveConflict [FPath.mk "d" "a.txt", FPath.mk "d" "a (1).txt"]
      (FPath.mk "d" "a.txt") = FPath.mk "d" "a (2).txt" := by
  have hmain : dest ∈ fsp → ∃ c, 1 ≤ c ∧ resolveConflict fsp dest = candidateAt dest c ∧
      candidateAt dest c ∉ fsp ∧ ∀ k, 1 ≤ k → k < c → candidateAt dest k ∈ fsp := by
    intro hd
    cases hres : resolveAux fsp dest (fsp.length + 1) 1 with
    | none => exact absurd hres (resolveAux_isSome fsp dest)
    | some r =>
      obtain ⟨j, hjf, hr, hnot, hall⟩ :=
        resolveAux_some_spec fsp dest (fsp.length + 1) 1 r hres
      refine ⟨1 + j, by omega, ?_, ?_, ?_⟩
      · simp only [resolveConflict, if_pos hd, hres, Option.getD_some]
        exact hr
      · rw [← hr]
        exact hnot
      · intro k h1k hkc
        rw [show k = 1 + (k - 1) by omega]
        exact hall (k - 1) (by omega)
  have hnever : resolveConflict fsp dest ∉ fsp := by
    by_cases hd : dest ∈ fsp
    · obtain ⟨c, -, heq, hnot, -⟩ := hmain hd
      rw [heq]
      exact hnot
    · simp only [resolveConflict, if_neg hd]
      exact hd
  exact ⟨fun hd => by simp [resolveConflict, hd], hmain, hnever, by decide, by decide⟩

/-- Witness for C4: a destination that does not exist is returned
unchanged. -/
theorem resolveConflict_spec_witness :
    resolveConflict [FPath.mk "d" "a.txt"] (FPath.mk "d" "b.txt") =
      FPath.mk "d" "b.txt" :=
  (resolveConflict_spec [FPath.mk "d" "a.txt"] (FPath.mk "d" "b.txt")).1 (by decide)

end TidyCore
